import Mathlib

/-!
Verification development for the WASM Lean runtime
(`src/wasm/lean_runtime_wasm.c`, `src/wasm/init_stubs_wasm.c`,
`src/wasm/wasm_glue.c`).

The C code is shallowly embedded: heap objects become inductive trees,
byte buffers become `List Nat` (each entry a byte value), strings become a
structure mirroring `lean_string_object` (byte data without the trailing
NUL terminator, plus the cached codepoint count `m_length`), fallible or
aborting code returns `Option`/`IOResult`.  Machine arithmetic that cannot
overflow in the modelled ranges is carried out on `Nat`; where the C code
truncates through a `(char)` cast the model takes `% 256`.
-/

set_option maxHeartbeats 1000000
set_option linter.unusedVariables false

namespace LeanWasm

/-! ## Heap object model and the release engine (`lean_dec_ref_cold`)

`lean_dec_ref_cold` (lean_runtime_wasm.c:150-174) releases an object whose
reference count reached 1: for constructors it calls `lean_dec` on each of
the `m_other` fields, for closures on each fixed argument, for arrays on
each element, for refs on the stored value; scalar arrays, strings and MPZ
have no children.  `lean_dec` on a non-scalar object whose count is 1
re-enters `lean_dec_ref_cold` — plain native-stack recursion, there is no
auxiliary work list in the source.

`HObj` models a structure of uniquely-owned (reference count 1,
non-persistent) heap objects; `HObj.scalar` is a tagged scalar value, which
`lean_dec` ignores.  `HObjList` is the list of owned children. -/

mutual

inductive HObj : Type where
  | scalar : HObj
  | ctor : HObjList → HObj
  | closure : HObjList → HObj
  | array : HObjList → HObj
  | sarray : HObj
  | str : HObj
  | refNull : HObj
  | ref : HObj → HObj

inductive HObjList : Type where
  | nil : HObjList
  | cons : HObj → HObjList → HObjList

end

mutual

/-- Depth of nested `lean_dec_ref_cold` native stack frames incurred by
`lean_dec` on a value, when every heap object in the structure is uniquely
owned: a scalar incurs no frame; a heap object incurs one frame plus the
deepest frame chain among the `lean_dec` calls on its owned children
(record fields, closure fixed arguments, array elements, ref value —
byte buffers and strings own nothing). -/
def decRefDepth : HObj → Nat
  | .scalar => 0
  | .ctor cs => 1 + decRefDepthList cs
  | .closure cs => 1 + decRefDepthList cs
  | .array cs => 1 + decRefDepthList cs
  | .sarray => 1
  | .str => 1
  | .refNull => 1
  | .ref v => 1 + decRefDepth v

/-- Deepest `lean_dec_ref_cold` frame chain among a list of owned children. -/
def decRefDepthList : HObjList → Nat
  | .nil => 0
  | .cons o os => max (decRefDepth o) (decRefDepthList os)

end

mutual

/-- Number of `lean_free_object` calls performed by `lean_dec` on a value
whose heap objects are all uniquely owned: each heap object is freed once
(after its owned children), scalars are never freed. -/
def freedObjects : HObj → Nat
  | .scalar => 0
  | .ctor cs => 1 + freedObjectsList cs
  | .closure cs => 1 + freedObjectsList cs
  | .array cs => 1 + freedObjectsList cs
  | .sarray => 1
  | .str => 1
  | .refNull => 1
  | .ref v => 1 + freedObjects v

/-- Total `lean_free_object` calls over a list of owned children. -/
def freedObjectsList : HObjList → Nat
  | .nil => 0
  | .cons o os => freedObjects o + freedObjectsList os

end

/-- A chain of `n + 1` nested records: `chainRecord 0` is a record with no
fields, `chainRecord (n+1)` is a record whose single owned field is
`chainRecord n`. -/
def chainRecord : Nat → HObj
  | 0 => .ctor .nil
  | n + 1 => .ctor (.cons (chainRecord n) .nil)

/-! ## Closure calling convention (`lean_call_with_args`, `lean_apply_m`)

A runtime value is either a scalar or a closure `clos fn arity fixed`
(function pointer id, declared arity `m_arity`, already-bound arguments
`m_objs[0..m_num_fixed)`).  The semantics of the native function pointers
is a parameter `env : Nat → List LVal → LVal`.  `none` models a fatal
panic/abort. -/

inductive LVal : Type where
  | scalar : Nat → LVal
  | clos : Nat → Nat → List LVal → LVal

/-- `lean_call_with_args` (lean_runtime_wasm.c:206-226): dispatches on the
declared arity; each case `1..16` invokes the function pointer with exactly
the first `arity` arguments of `a` in order; any other arity hits the
`default` case, which panics (`none`) instead of truncating. -/
def lean_call_with_args (env : Nat → List LVal → LVal) (fn : Nat)
    (arity : Nat) (a : List LVal) : Option LVal :=
  if 1 ≤ arity ∧ arity ≤ 16 then some (env fn (a.take arity)) else none

/-- `lean_apply_m` (lean_runtime_wasm.c:228-263), with an explicit fuel
bound on the number of re-entries (the C recursion is not structurally
bounded: a fully-applied closure result can re-enter with the same
argument list).  With `remaining = m_arity - m_num_fixed`:
under-application (`n < remaining`) builds a closure with the fixed
arguments followed by the supplied ones; otherwise the function pointer is
invoked on the fixed arguments plus the first `remaining` supplied ones,
and an over-application re-applies the leftover arguments to the result. -/
def lean_apply_m (env : Nat → List LVal → LVal) :
    Nat → LVal → List LVal → Option LVal
  | 0, _, _ => none
  | _ + 1, .scalar _, _ => none
  | fuel + 1, .clos fn ar fx, args =>
    let remaining := ar - fx.length
    if args.length < remaining then
      some (.clos fn ar (fx ++ args))
    else
      (lean_call_with_args env fn ar (fx ++ args.take remaining)).bind fun res =>
        if args.length = remaining then some res
        else lean_apply_m env fuel res (args.drop remaining)

/-- Applying a closure to a list of arguments one at a time: each step is a
call of `lean_apply_m` on a single-argument list (the shape of the
`lean_apply_1` wrapper, lean_runtime_wasm.c:269-272). -/
def applyEach (env : Nat → List LVal → LVal) (fuel : Nat) (f : LVal)
    (args : List LVal) : Option LVal :=
  args.foldl (fun acc a => acc.bind fun g => lean_apply_m env fuel g [a]) (some f)

/-! ## Container extraction (`l_ByteArray_extract`, `l_Array_extract___redArg`)

Both functions (init_stubs_wasm.c:76-90 and 171-183) clamp `start` and
`stop` to the container size, return a fresh empty container when the
clamped `start ≥ stop`, and otherwise copy (for arrays: retain and copy)
the elements at indices `[start, stop)`. -/

/-- `l_ByteArray_extract`: bytes at clamped indices `[s, e)` of the buffer. -/
def l_ByteArray_extract (a : List Nat) (start stop : Nat) : List Nat :=
  let sz := a.length
  let s := min start sz
  let e := min stop sz
  if e ≤ s then [] else (a.drop s).take (e - s)

/-- `l_Array_extract___redArg`: identical index arithmetic on an object
array; each copied element is retained (`lean_inc`), which at value level
means the result holds the same elements. -/
def l_Array_extract___redArg {α : Type} (a : List α) (start stop : Nat) : List α :=
  let sz := a.length
  let s := min start sz
  let e := min stop sz
  if e ≤ s then [] else (a.drop s).take (e - s)

/-! ## Strings (`lean_string_object`)

`data` is the byte content before the trailing NUL terminator
(`m_size = data.length + 1` bytes are stored), `m_length` is the cached
codepoint count. -/

structure LString where
  data : List Nat
  m_length : Nat

/-- Stored byte length `m_size`, including the trailing NUL terminator. -/
def LString.m_size (s : LString) : Nat := s.data.length + 1

/-- Byte at offset `k` of the stored buffer: the content bytes followed by
the NUL terminator (the buffer is always terminator-padded). -/
def strByte (s : LString) (k : Nat) : Nat := (s.data ++ [0]).getD k 0

/-- UTF-8 bytes produced by `lean_string_push` (lean_runtime_wasm.c:608-628)
for codepoint `c`: 1 byte below 0x80, 2 below 0x800, 3 below 0x10000, else
4; the `(char)` casts truncate each byte to 8 bits. -/
def pushEncode (c : Nat) : List Nat :=
  if c < 0x80 then [c % 256]
  else if c < 0x800 then
    [(0xC0 ||| (c >>> 6)) % 256,
     (0x80 ||| (c &&& 0x3F)) % 256]
  else if c < 0x10000 then
    [(0xE0 ||| (c >>> 12)) % 256,
     (0x80 ||| ((c >>> 6) &&& 0x3F)) % 256,
     (0x80 ||| (c &&& 0x3F)) % 256]
  else
    [(0xF0 ||| (c >>> 18)) % 256,
     (0x80 ||| ((c >>> 12) &&& 0x3F)) % 256,
     (0x80 ||| ((c >>> 6) &&& 0x3F)) % 256,
     (0x80 ||| (c &&& 0x3F)) % 256]

/-- `lean_string_push` (lean_runtime_wasm.c:608-653): appends the encoded
bytes before the terminator, adds their count to `m_size` and 1 to
`m_length`.  The exclusive in-place branch and the reallocating branch
produce the same stored content, byte length and codepoint count. -/
def lean_string_push (s : LString) (c : Nat) : LString :=
  { data := s.data ++ pushEncode c, m_length := s.m_length + 1 }

/-- `lean_string_utf8_get` (lean_runtime_wasm.c:753-762): 0 at or past the
terminator position; otherwise decodes the sequence led by the byte at
`pos`, combining the low six bits of the following continuation bytes. -/
def lean_string_utf8_get (s : LString) (pos : Nat) : Nat :=
  if s.data.length ≤ pos then 0
  else
    let c := strByte s pos
    if c < 0x80 then c
    else if c < 0xE0 then
      ((c &&& 0x1F) <<< 6) ||| (strByte s (pos + 1) &&& 0x3F)
    else if c < 0xF0 then
      ((c &&& 0x0F) <<< 12) ||| ((strByte s (pos + 1) &&& 0x3F) <<< 6) |||
        (strByte s (pos + 2) &&& 0x3F)
    else
      ((c &&& 0x07) <<< 18) ||| ((strByte s (pos + 1) &&& 0x3F) <<< 12) |||
        ((strByte s (pos + 2) &&& 0x3F) <<< 6) ||| (strByte s (pos + 3) &&& 0x3F)

/-- `lean_string_utf8_set` (lean_runtime_wasm.c:747-751): the body ignores
`i` and `c` and returns the string argument unchanged. -/
def lean_string_utf8_set (s : LString) (i : Nat) (c : Nat) : LString :=
  s

mutual

/-- Scan loop of `lean_string_validate_utf8` (lean_runtime_wasm.c:842-855)
over the content bytes: ASCII advances by one; a lead below 0xC2 (lone
continuation byte or overlong 2-byte start) fails; 2-, 3- and 4-byte leads
hand the remaining bytes to the corresponding continuation check; a lead
at or above 0xF5 fails. -/
def validateLoop : List Nat → Bool
  | [] => true
  | b :: rest =>
    if b < 0x80 then validateLoop rest
    else if b < 0xC2 then false
    else if b < 0xE0 then validateTail1 rest
    else if b < 0xF0 then validateTail2 rest
    else if b < 0xF5 then validateTail3 rest
    else false
termination_by structural l => l

/-- Continuation check of the 2-byte arm: fewer than 2 bytes remain
(`end - p < 2`) or the continuation byte is not `10xxxxxx` fails. -/
def validateTail1 : List Nat → Bool
  | [] => false
  | b1 :: r => if b1 &&& 0xC0 == 0x80 then validateLoop r else false
termination_by structural l => l

/-- Continuation check of the 3-byte arm (`end - p < 3` or a continuation
byte not of shape `10xxxxxx` fails). -/
def validateTail2 : List Nat → Bool
  | b1 :: b2 :: r =>
    if (b1 &&& 0xC0 == 0x80) && (b2 &&& 0xC0 == 0x80) then validateLoop r
    else false
  | _ => false
termination_by structural l => l

/-- Continuation check of the 4-byte arm (`end - p < 4` or a continuation
byte not of shape `10xxxxxx` fails). -/
def validateTail3 : List Nat → Bool
  | b1 :: b2 :: b3 :: r =>
    if (b1 &&& 0xC0 == 0x80) && (b2 &&& 0xC0 == 0x80) &&
        (b3 &&& 0xC0 == 0x80) then validateLoop r
    else false
  | _ => false
termination_by structural l => l

end

/-- `lean_string_validate_utf8`: scans the `m_size - 1` content bytes and
returns a single boolean. -/
def lean_string_validate_utf8 (s : LString) : Bool :=
  validateLoop s.data

/-! ## IO results and capability stubs

`mk_io_error` (lean_runtime_wasm.c:1042-1049) builds
`EStateM.Result.error (IO.Error.userError msg)`; `IOResult.error msg`
models that tagged error value, `IOResult.ok` models
`lean_io_result_mk_ok`.  All the stubs below are straight-line code with
no abort path. -/

inductive IOResult (α : Type) : Type where
  | ok : α → IOResult α
  | error : String → IOResult α

/-- `mk_io_error`: an ordinary tagged error result carrying the message. -/
def mk_io_error {α : Type} (msg : String) : IOResult α := .error msg

/-- `lean_io_read_dir` (lean_runtime_wasm.c:1081-1085). -/
def lean_io_read_dir (path : String) : IOResult (List String) :=
  mk_io_error "filesystem not available in WASM"

/-- `lean_crypto_sha256` (lean_runtime_wasm.c:1102-1105). -/
def lean_crypto_sha256 (data : List Nat) : IOResult (List Nat) :=
  mk_io_error "crypto FFI not available in WASM"

/-- `lean_crypto_hmac_sha256` (lean_runtime_wasm.c:1107-1110). -/
def lean_crypto_hmac_sha256 (key data : List Nat) : IOResult (List Nat) :=
  mk_io_error "crypto FFI not available in WASM"

/-- `lean_crypto_aes128_gcm_encrypt` (lean_runtime_wasm.c:1112-1117). -/
def lean_crypto_aes128_gcm_encrypt (key iv aad pt : List Nat) :
    IOResult (List Nat) :=
  mk_io_error "crypto FFI not available in WASM"

/-- `lean_crypto_aes128_gcm_decrypt` (lean_runtime_wasm.c:1119-1124). -/
def lean_crypto_aes128_gcm_decrypt (key iv aad ct : List Nat) :
    IOResult (List Nat) :=
  mk_io_error "crypto FFI not available in WASM"

/-- `lean_crypto_x25519_base` (lean_runtime_wasm.c:1126-1129). -/
def lean_crypto_x25519_base (privkey : List Nat) : IOResult (List Nat) :=
  mk_io_error "crypto FFI not available in WASM"

/-- `lean_crypto_x25519` (lean_runtime_wasm.c:1131-1134). -/
def lean_crypto_x25519 (scalar point : List Nat) : IOResult (List Nat) :=
  mk_io_error "crypto FFI not available in WASM"

/-- `lean_io_promise_new` (lean_runtime_wasm.c:1176-1179). -/
def lean_io_promise_new : IOResult Unit :=
  mk_io_error "promises not available in WASM"

/-- `lean_io_get_random_bytes` (lean_runtime_wasm.c:1063-1069): allocates a
byte array of the requested length, fills it with zeros (the source
comment: zeros — not cryptographically random) and returns it as a success
result. -/
def lean_io_get_random_bytes (n : Nat) : IOResult (List Nat) :=
  .ok (List.replicate n 0)

/-- `lean_crypto_random_bytes` (lean_runtime_wasm.c:1136-1142): same
zero-filled buffer wrapped in a success result. -/
def lean_crypto_random_bytes (n : Nat) : IOResult (List Nat) :=
  .ok (List.replicate n 0)

/-! ## `lean_secure_zero` (wasm_glue.c:23-30)

A byte array object with its reference count (`m_rc`); `lean_is_exclusive`
holds exactly when the count is 1 (persistent objects have count 0 and are
not exclusive). -/

structure ByteArrayObj where
  rc : Nat
  data : List Nat

/-- `lean_is_exclusive` from lean.h: single-threaded reference count
exactly 1. -/
def lean_is_exclusive (a : ByteArrayObj) : Bool := a.rc == 1

/-- `lean_secure_zero`: `memset` of all `m_size` bytes to zero when the
array is exclusively owned, no write otherwise; either way the array is
returned via `lean_io_result_mk_ok`. -/
def lean_secure_zero (arr : ByteArrayObj) : IOResult ByteArrayObj :=
  if lean_is_exclusive arr then
    IOResult.ok { arr with data := List.replicate arr.data.length 0 }
  else
    IOResult.ok arr

/-! ## Helper lemmas -/

theorem decRefDepth_chainRecord (n : Nat) : decRefDepth (chainRecord n) = n + 1 := by
  induction n with
  | zero => rfl
  | succ n ih =>
    simp only [chainRecord, decRefDepth, decRefDepthList, ih, Nat.max_zero]
    omega

theorem freedObjects_chainRecord (n : Nat) : freedObjects (chainRecord n) = n + 1 := by
  induction n with
  | zero => rfl
  | succ n ih =>
    simp only [chainRecord, freedObjects, freedObjectsList, ih]
    omega

theorem extract_length {α : Type} (a : List α) (start stop : Nat) :
    (l_Array_extract___redArg a start stop).length =
      min stop a.length - min start a.length := by
  unfold l_Array_extract___redArg
  by_cases h : min stop a.length ≤ min start a.length
  · simp only [if_pos h, List.length_nil]
    omega
  · simp only [if_neg h, List.length_take, List.length_drop]
    omega

theorem extract_getElem? {α : Type} (a : List α) (start stop k : Nat)
    (hk : k < min stop a.length - min start a.length) :
    (l_Array_extract___redArg a start stop)[k]? = a[min start a.length + k]? := by
  unfold l_Array_extract___redArg
  have h : ¬ (min stop a.length ≤ min start a.length) := by omega
  simp only [if_neg h]
  rw [List.getElem?_take_of_lt hk, List.getElem?_drop]

theorem byte_extract_eq_array_extract (a : List Nat) (start stop : Nat) :
    l_ByteArray_extract a start stop = l_Array_extract___redArg a start stop := rfl

theorem lean_apply_m_mono (env : Nat → List LVal → LVal) :
    ∀ fuel fuel' (f : LVal) (args : List LVal) (v : LVal), fuel ≤ fuel' →
      lean_apply_m env fuel f args = some v →
      lean_apply_m env fuel' f args = some v := by
  intro fuel
  induction fuel with
  | zero =>
    intro fuel' f args v _ h
    simp [lean_apply_m] at h
  | succ fuel ih =>
    intro fuel' f args v hle h
    obtain ⟨fuel'', rfl⟩ : ∃ k, fuel' = k + 1 := ⟨fuel' - 1, by omega⟩
    have hle'' : fuel ≤ fuel'' := by omega
    cases f with
    | scalar n => simp [lean_apply_m] at h
    | clos fn ar fx =>
      rw [lean_apply_m] at h ⊢
      by_cases hlt : args.length < ar - fx.length
      · simpa [hlt] using h
      · simp only [if_neg hlt] at h ⊢
        cases hc : lean_call_with_args env fn ar (fx ++ args.take (ar - fx.length)) with
        | none => simp [hc] at h
        | some res =>
          simp only [hc, Option.some_bind] at h ⊢
          by_cases heq : args.length = ar - fx.length
          · simpa [heq] using h
          · simp only [if_neg heq] at h ⊢
            exact ih fuel'' res (args.drop (ar - fx.length)) v hle'' h

theorem lean_apply_m_append (env : Nat → List LVal → LVal) :
    ∀ fuel (f : LVal) (xs ys : List LVal) (v : LVal), xs ≠ [] → ys ≠ [] →
      lean_apply_m env fuel f (xs ++ ys) = some v →
      ∃ g, lean_apply_m env fuel f xs = some g ∧
        lean_apply_m env fuel g ys = some v := by
  intro fuel
  induction fuel with
  | zero =>
    intro f xs ys v _ _ h
    simp [lean_apply_m] at h
  | succ fuel ih =>
    intro f xs ys v hxs hys h
    have hxpos : 0 < xs.length := List.length_pos.mpr hxs
    have hypos : 0 < ys.length := List.length_pos.mpr hys
    cases f with
    | scalar n => simp [lean_apply_m] at h
    | clos fn ar fx =>
      rw [lean_apply_m] at h
      simp only [List.length_append] at h
      by_cases hA : xs.length + ys.length < ar - fx.length
      · -- combined under-application: both steps under-apply
        rw [if_pos hA] at h
        refine ⟨.clos fn ar (fx ++ xs), ?_, ?_⟩
        · rw [lean_apply_m, if_pos (by omega)]
        · rw [lean_apply_m]
          simp only [List.length_append]
          rw [if_pos (by omega), List.append_assoc]
          exact h
      · rw [if_neg hA] at h
        cases hcall : lean_call_with_args env fn ar
            (fx ++ List.take (ar - fx.length) (xs ++ ys)) with
        | none => simp [hcall] at h
        | some res =>
          simp only [hcall, Option.some_bind] at h
          by_cases hB1 : xs.length < ar - fx.length
          · -- the first application under-applies
            have htake : List.take (ar - fx.length) (xs ++ ys) =
                xs ++ List.take (ar - fx.length - xs.length) ys := by
              rw [List.take_append_eq_append_take, List.take_of_length_le (by omega)]
            refine ⟨.clos fn ar (fx ++ xs), ?_, ?_⟩
            · rw [lean_apply_m, if_pos hB1]
            · rw [lean_apply_m]
              simp only [List.length_append]
              rw [if_neg (by omega)]
              by_cases hB1a : xs.length + ys.length = ar - fx.length
              · -- exact application after the split
                rw [if_pos hB1a] at h
                have harg : (fx ++ xs) ++ List.take (ar - (fx.length + xs.length)) ys =
                    fx ++ List.take (ar - fx.length) (xs ++ ys) := by
                  rw [List.take_of_length_le (α := LVal)
                      (l := xs ++ ys) (by simp; omega),
                    show ar - (fx.length + xs.length) = ys.length from by omega,
                    List.take_length, List.append_assoc]
                rw [harg, hcall]
                simp only [Option.some_bind]
                rw [if_pos (by omega)]
                exact h
              · -- over-application continues after the split
                rw [if_neg hB1a] at h
                have hdrop : List.drop (ar - fx.length) (xs ++ ys) =
                    List.drop (ar - fx.length - xs.length) ys := by
                  rw [List.drop_append_eq_append_drop,
                    List.drop_of_length_le (by omega), List.nil_append]
                rw [hdrop] at h
                have harg : (fx ++ xs) ++ List.take (ar - (fx.length + xs.length)) ys =
                    fx ++ List.take (ar - fx.length) (xs ++ ys) := by
                  rw [htake,
                    show ar - (fx.length + xs.length) = ar - fx.length - xs.length
                      from by omega,
                    List.append_assoc]
                rw [harg, hcall]
                simp only [Option.some_bind]
                rw [if_neg (by omega),
                  show ar - (fx.length + xs.length) = ar - fx.length - xs.length
                    from by omega]
                exact h
          · by_cases hB2 : xs.length = ar - fx.length
            · -- the first application is exact
              have htake : List.take (ar - fx.length) (xs ++ ys) = xs := by
                rw [List.take_append_of_le_length (by omega), ← hB2, List.take_length]
              have hdrop : List.drop (ar - fx.length) (xs ++ ys) = ys := by
                rw [List.drop_append_eq_append_drop,
                  List.drop_of_length_le (by omega), List.nil_append,
                  show ar - fx.length - xs.length = 0 from by omega, List.drop_zero]
              rw [if_neg (by omega), hdrop] at h
              refine ⟨res, ?_, ?_⟩
              · rw [lean_apply_m, if_neg (by omega),
                  show List.take (ar - fx.length) xs = List.take (ar - fx.length) (xs ++ ys)
                    from by rw [htake, ← hB2, List.take_length],
                  hcall]
                simp only [Option.some_bind]
                rw [if_pos hB2]
              · exact lean_apply_m_mono env fuel (fuel + 1) res ys v (by omega) h
            · -- the first application itself over-applies
              have htake : List.take (ar - fx.length) (xs ++ ys) =
                  List.take (ar - fx.length) xs := by
                rw [List.take_append_of_le_length (by omega)]
              have hdrop : List.drop (ar - fx.length) (xs ++ ys) =
                  List.drop (ar - fx.length) xs ++ ys := by
                rw [List.drop_append_of_le_length (by omega)]
              rw [if_neg (by omega), hdrop] at h
              have hxs' : List.drop (ar - fx.length) xs ≠ [] := by
                apply List.ne_nil_of_length_pos
                rw [List.length_drop]
                omega
              obtain ⟨g, hg1, hg2⟩ := ih res (List.drop (ar - fx.length) xs) ys v hxs' hys h
              refine ⟨g, ?_, ?_⟩
              · rw [lean_apply_m, if_neg (by omega), show
                  List.take (ar - fx.length) xs = List.take (ar - fx.length) (xs ++ ys)
                    from htake.symm,
                  hcall]
                simp only [Option.some_bind]
                rw [if_neg (by omega)]
                exact hg1
              · exact lean_apply_m_mono env fuel (fuel + 1) g ys v (by omega) hg2

theorem applyEach_of_apply_m (env : Nat → List LVal → LVal) :
    ∀ (args : List LVal) fuel (f : LVal) (v : LVal), args ≠ [] →
      lean_apply_m env fuel f args = some v →
      applyEach env fuel f args = some v := by
  intro args
  induction args with
  | nil => intro fuel f v h; exact absurd rfl h
  | cons a rest ih =>
    intro fuel f v _ h
    by_cases hne : rest = []
    · subst hne
      simp only [applyEach, List.foldl_cons, List.foldl_nil, Option.some_bind]
      exact h
    · obtain ⟨g, hg1, hg2⟩ :=
        lean_apply_m_append env fuel f [a] rest v (List.cons_ne_nil _ _) hne h
      have hrest := ih fuel g v hne hg2
      simp only [applyEach, List.foldl_cons, Option.some_bind] at hrest ⊢
      rw [hg1]
      exact hrest

/-! ## Claim theorems -/

/-- C1 (amended): releasing a uniquely-owned chain of `n + 1` nested
records frees all `n + 1` heap objects, but does so by direct recursion of
`lean_dec_ref_cold` on the native call stack: the nested frame depth is
exactly `n + 1`, growing linearly with the chain depth instead of being
bounded by a constant (there is no auxiliary work list in the source). -/
theorem C1_release_recursion_linear (n : Nat) :
    freedObjects (chainRecord n) = n + 1 ∧ decRefDepth (chainRecord n) = n + 1 :=
  ⟨freedObjects_chainRecord n, decRefDepth_chainRecord n⟩

/-- C1 counterexample: the native recursion depth of releasing a chain of
nested records is not bounded by any constant independent of the chain
depth — for every candidate bound `C`, the chain of depth `C + 1` exceeds
it. -/
theorem C1_counterexample_depth_unbounded :
    ¬ ∃ C, ∀ N, decRefDepth (chainRecord N) ≤ C := by
  rintro ⟨C, h⟩
  have hC := h (C + 1)
  rw [decRefDepth_chainRecord] at hC
  omega

/-- C2: for a 3-arity closure with no fixed arguments,
`apply(apply(c,[x]),[y,z])` produces the same result as `apply(c,[x,y,z])`;
in general, whenever applying a closure to `xs ++ ys` at once produces a
result, splitting the application into `xs` then `ys` produces the same
result, and so does applying the arguments one at a time (fuel bounds the
over-application re-entries of the C recursion; a produced result is
preserved by any larger fuel by `lean_apply_m`'s monotonicity). -/
theorem C2_apply_associativity (env : Nat → List LVal → LVal) (fn : Nat) :
    (∀ x y z : LVal,
      (lean_apply_m env 1 (.clos fn 3 []) [x]).bind
          (fun g => lean_apply_m env 1 g [y, z]) =
        lean_apply_m env 1 (.clos fn 3 []) [x, y, z]) ∧
    (∀ fuel (f : LVal) (xs ys : List LVal) (v : LVal), xs ≠ [] → ys ≠ [] →
      lean_apply_m env fuel f (xs ++ ys) = some v →
      ∃ g, lean_apply_m env fuel f xs = some g ∧
        lean_apply_m env fuel g ys = some v) ∧
    (∀ fuel (f : LVal) (args : List LVal) (v : LVal), args ≠ [] →
      lean_apply_m env fuel f args = some v →
      applyEach env fuel f args = some v) := by
  refine ⟨?_, lean_apply_m_append env, ?_⟩
  · intro x y z
    rfl
  · intro fuel f args v hargs h
    exact applyEach_of_apply_m env args fuel f v hargs h

/-- C2 witness: a 2-arity closure applied to two arguments, split one at a
time through the claim theorem, reaches the same call of the underlying
function. -/
theorem C2_apply_associativity_witness :
    ∃ g, lean_apply_m (fun _ as => LVal.scalar as.length) 2
        (LVal.clos 0 2 []) [LVal.scalar 1] = some g ∧
      lean_apply_m (fun _ as => LVal.scalar as.length) 2 g [LVal.scalar 2] =
        some (LVal.scalar 2) :=
  (C2_apply_associativity (fun _ as => LVal.scalar as.length) 0).2.1 2
    (LVal.clos 0 2 []) [LVal.scalar 1] [LVal.scalar 2] (LVal.scalar 2)
    (by simp) (by simp) rfl

/-- C3: both `l_ByteArray_extract` and `l_Array_extract___redArg` clamp
`start` and `stop` to `[0, length]`; when the clamped start is at least the
clamped stop the result is the empty container; the result length is
`min stop n - min start n`, and element `k` of the result is element
`min start n + k` of the input (object-array elements are the retained
originals). -/
theorem C3_extract_clamped_subrange {α : Type} (oa : List α) (ba : List Nat)
    (start stop : Nat) :
    (min stop ba.length ≤ min start ba.length →
      l_ByteArray_extract ba start stop = []) ∧
    (l_ByteArray_extract ba start stop).length =
      min stop ba.length - min start ba.length ∧
    (∀ k, k < min stop ba.length - min start ba.length →
      (l_ByteArray_extract ba start stop)[k]? = ba[min start ba.length + k]?) ∧
    (min stop oa.length ≤ min start oa.length →
      l_Array_extract___redArg oa start stop = []) ∧
    (l_Array_extract___redArg oa start stop).length =
      min stop oa.length - min start oa.length ∧
    (∀ k, k < min stop oa.length - min start oa.length →
      (l_Array_extract___redArg oa start stop)[k]? = oa[min start oa.length + k]?) := by
  refine ⟨?_, ?_, ?_, ?_, ?_, ?_⟩
  · intro h
    rw [byte_extract_eq_array_extract]
    unfold l_Array_extract___redArg
    simp only [if_pos h]
  · rw [byte_extract_eq_array_extract]; exact extract_length ba start stop
  · intro k hk
    rw [byte_extract_eq_array_extract]; exact extract_getElem? ba start stop k hk
  · intro h
    unfold l_Array_extract___redArg
    simp only [if_pos h]
  · exact extract_length oa start stop
  · intro k hk
    exact extract_getElem? oa start stop k hk

/-- C3 witness: evaluating the extract operations at concrete inputs
through the claim theorem. -/
theorem C3_extract_witness :
    (l_ByteArray_extract [1, 2, 3] 1 5)[0]? = some 2 ∧
    l_ByteArray_extract [1, 2, 3] 3 2 = [] ∧
    (l_Array_extract___redArg [10, 20, 30] 1 3)[1]? = some 30 := by
  refine ⟨?_, ?_, ?_⟩
  · have h := (C3_extract_clamped_subrange ([] : List Nat) [1, 2, 3] 1 5).2.2.1 0
      (by decide)
    simpa using h
  · exact (C3_extract_clamped_subrange ([] : List Nat) [1, 2, 3] 3 2).1 (by decide)
  · have h := (C3_extract_clamped_subrange [10, 20, 30] ([] : List Nat) 1 3).2.2.2.2.2 1
      (by decide)
    simpa using h

/-- C4: pushing codepoint `c` appends 1 byte when `c < 0x80`, 2 when
`c < 0x800`, 3 when `c < 0x10000` and 4 otherwise, placed before the
terminator; `m_size` grows by exactly that many bytes and the cached
codepoint count `m_length` by exactly 1.  Pushing U+00E9 onto the empty
string stores bytes `0xC3 0xA9` (byte length 2 plus terminator, codepoint
count 1) and decoding at offset 0 returns 0xE9. -/
theorem C4_string_push_utf8 (s : LString) (c : Nat) :
    (pushEncode c).length =
      (if c < 0x80 then 1 else if c < 0x800 then 2
       else if c < 0x10000 then 3 else 4) ∧
    (lean_string_push s c).data = s.data ++ pushEncode c ∧
    (lean_string_push s c).m_size = s.m_size + (pushEncode c).length ∧
    (lean_string_push s c).m_length = s.m_length + 1 ∧
    (lean_string_push { data := [], m_length := 0 } 0xE9).data = [0xC3, 0xA9] ∧
    (lean_string_push { data := [], m_length := 0 } 0xE9).m_size = 2 + 1 ∧
    (lean_string_push { data := [], m_length := 0 } 0xE9).m_length = 1 ∧
    lean_string_utf8_get (lean_string_push { data := [], m_length := 0 } 0xE9) 0
      = 0xE9 := by
  refine ⟨?_, rfl, ?_, rfl, by decide, by decide, by decide, by decide⟩
  · unfold pushEncode
    split_ifs <;> rfl
  · unfold LString.m_size lean_string_push
    simp only [List.length_append]
    omega

/-- C5: UTF-8 validation returns a single boolean and rejects, at any scan
position: a lone continuation byte or any non-ASCII lead below 0xC2
(overlong start), a lead at or above 0xF5, and a multi-byte sequence that
is truncated or whose continuation bytes do not have the `10xxxxxx` shape;
the single byte 0xC2 alone is invalid while 0xC2 0xA9 is valid. -/
theorem C5_validate_utf8_rejects (b b1 b2 b3 : Nat) (rest : List Nat) :
    (0x80 ≤ b → b < 0xC2 → validateLoop (b :: rest) = false) ∧
    (0xF5 ≤ b → validateLoop (b :: rest) = false) ∧
    (0xC2 ≤ b → b < 0xE0 → validateLoop [b] = false) ∧
    (0xC2 ≤ b → b < 0xE0 → b1 &&& 0xC0 ≠ 0x80 →
      validateLoop (b :: b1 :: rest) = false) ∧
    (0xE0 ≤ b → b < 0xF0 →
      validateLoop [b] = false ∧ validateLoop [b, b1] = false) ∧
    (0xE0 ≤ b → b < 0xF0 → (b1 &&& 0xC0 ≠ 0x80 ∨ b2 &&& 0xC0 ≠ 0x80) →
      validateLoop (b :: b1 :: b2 :: rest) = false) ∧
    (0xF0 ≤ b → b < 0xF5 →
      validateLoop [b] = false ∧ validateLoop [b, b1] = false ∧
        validateLoop [b, b1, b2] = false) ∧
    (0xF0 ≤ b → b < 0xF5 →
      (b1 &&& 0xC0 ≠ 0x80 ∨ b2 &&& 0xC0 ≠ 0x80 ∨ b3 &&& 0xC0 ≠ 0x80) →
      validateLoop (b :: b1 :: b2 :: b3 :: rest) = false) ∧
    lean_string_validate_utf8 { data := [0xC2], m_length := 1 } = false ∧
    lean_string_validate_utf8 { data := [0xC2, 0xA9], m_length := 1 } = true := by
  refine ⟨?_, ?_, ?_, ?_, ?_, ?_, ?_, ?_, by decide, by decide⟩
  · intro h1 h2
    rw [validateLoop, if_neg (by omega), if_pos (by omega)]
  · intro h1
    rw [validateLoop, if_neg (by omega), if_neg (by omega), if_neg (by omega),
      if_neg (by omega), if_neg (by omega)]
  · intro h1 h2
    rw [validateLoop, if_neg (by omega), if_neg (by omega), if_pos (by omega)]
    rfl
  · intro h1 h2 h3
    rw [validateLoop, if_neg (by omega), if_neg (by omega), if_pos (by omega),
      validateTail1, if_neg (by simpa using h3)]
  · intro h1 h2
    constructor
    · rw [validateLoop, if_neg (by omega), if_neg (by omega), if_neg (by omega),
        if_pos (by omega)]
      rfl
    · rw [validateLoop, if_neg (by omega), if_neg (by omega), if_neg (by omega),
        if_pos (by omega)]
      rfl
  · intro h1 h2 h3
    rw [validateLoop, if_neg (by omega), if_neg (by omega), if_neg (by omega),
      if_pos (by omega), validateTail2, if_neg]
    simp only [Bool.and_eq_true, beq_iff_eq]
    tauto
  · intro h1 h2
    refine ⟨?_, ?_, ?_⟩
    · rw [validateLoop, if_neg (by omega), if_neg (by omega), if_neg (by omega),
        if_neg (by omega), if_pos (by omega)]
      rfl
    · rw [validateLoop, if_neg (by omega), if_neg (by omega), if_neg (by omega),
        if_neg (by omega), if_pos (by omega)]
      rfl
    · rw [validateLoop, if_neg (by omega), if_neg (by omega), if_neg (by omega),
        if_neg (by omega), if_pos (by omega)]
      rfl
  · intro h1 h2 h3
    rw [validateLoop, if_neg (by omega), if_neg (by omega), if_neg (by omega),
      if_neg (by omega), if_pos (by omega), validateTail3, if_neg]
    simp only [Bool.and_eq_true, beq_iff_eq]
    tauto

/-- C5 witness: concrete rejected buffers obtained through the claim
theorem — a lone continuation byte, a 2-byte lead followed by a
non-continuation byte, a 3-byte sequence with a bad second continuation,
and a lead beyond the valid codepoint range. -/
theorem C5_validate_utf8_witness :
    validateLoop [0x80] = false ∧
    validateLoop [0xC2, 0x41] = false ∧
    validateLoop [0xE2, 0x82, 0x41] = false ∧
    validateLoop [0xF5] = false :=
  ⟨(C5_validate_utf8_rejects 0x80 0 0 0 []).1 (by omega) (by omega),
   (C5_validate_utf8_rejects 0xC2 0x41 0 0 []).2.2.2.1 (by omega) (by omega)
     (by decide),
   (C5_validate_utf8_rejects 0xE2 0x82 0x41 0 []).2.2.2.2.2.1 (by omega)
     (by omega) (Or.inr (by decide)),
   (C5_validate_utf8_rejects 0xF5 0 0 0 []).2.1 (by omega)⟩

/-- C6: every capability stub with no sandbox implementation — directory
listing, the crypto FFI operations and promise creation — returns the
ordinary tagged error result built by `mk_io_error`, carrying its
descriptive message, as a normal result value (the stubs are straight-line
code with no abort path). -/
theorem C6_capability_stubs_are_errors :
    (∀ path, lean_io_read_dir path =
      IOResult.error "filesystem not available in WASM") ∧
    (∀ d, lean_crypto_sha256 d =
      IOResult.error "crypto FFI not available in WASM") ∧
    (∀ k d, lean_crypto_hmac_sha256 k d =
      IOResult.error "crypto FFI not available in WASM") ∧
    (∀ k iv aad pt, lean_crypto_aes128_gcm_encrypt k iv aad pt =
      IOResult.error "crypto FFI not available in WASM") ∧
    (∀ k iv aad ct, lean_crypto_aes128_gcm_decrypt k iv aad ct =
      IOResult.error "crypto FFI not available in WASM") ∧
    (∀ p, lean_crypto_x25519_base p =
      IOResult.error "crypto FFI not available in WASM") ∧
    (∀ sc pt, lean_crypto_x25519 sc pt =
      IOResult.error "crypto FFI not available in WASM") ∧
    lean_io_promise_new = IOResult.error "promises not available in WASM" :=
  ⟨fun _ => rfl, fun _ => rfl, fun _ _ => rfl, fun _ _ _ _ => rfl,
   fun _ _ _ _ => rfl, fun _ => rfl, fun _ _ => rfl, rfl⟩

/-- C7: both random-bytes operations return a success result holding
exactly `n` bytes, each zero — a fixed, non-random placeholder — and never
an error; being equal to the same fixed value, two calls with the same `n`
have identical contents. -/
theorem C7_random_bytes_fixed_zero (n : Nat) :
    lean_io_get_random_bytes n = IOResult.ok (List.replicate n 0) ∧
    lean_crypto_random_bytes n = IOResult.ok (List.replicate n 0) ∧
    (List.replicate n 0).length = n :=
  ⟨rfl, rfl, List.length_replicate n 0⟩

/-- C8: `lean_call_with_args` with a declared arity outside 1–16 hits the
`default` case and panics (modelled `none`) instead of truncating the
argument list; for an arity within 1–16 it invokes the function pointer
with exactly the first `arity` arguments in order — with exactly the
supplied arguments when their count equals the arity. -/
theorem C8_call_with_args_arity (env : Nat → List LVal → LVal)
    (fn arity : Nat) (args : List LVal) :
    (arity = 0 ∨ 16 < arity → lean_call_with_args env fn arity args = none) ∧
    (1 ≤ arity → arity ≤ 16 →
      lean_call_with_args env fn arity args = some (env fn (args.take arity))) ∧
    (1 ≤ arity → arity ≤ 16 → args.length = arity →
      lean_call_with_args env fn arity args = some (env fn args)) := by
  refine ⟨?_, ?_, ?_⟩
  · intro h
    unfold lean_call_with_args
    rw [if_neg]
    omega
  · intro h1 h2
    unfold lean_call_with_args
    rw [if_pos ⟨h1, h2⟩]
  · intro h1 h2 hlen
    unfold lean_call_with_args
    rw [if_pos ⟨h1, h2⟩, ← hlen, List.take_length]

/-- C8 witness: arity 17 panics, arity 2 invokes the function on exactly
the two supplied arguments. -/
theorem C8_call_with_args_witness :
    lean_call_with_args (fun _ _ => LVal.scalar 0) 0 17 [] = none ∧
    lean_call_with_args (fun _ as => LVal.scalar as.length) 0 2
      [LVal.scalar 5, LVal.scalar 6] = some (LVal.scalar 2) :=
  ⟨(C8_call_with_args_arity (fun _ _ => LVal.scalar 0) 0 17 []).1
      (Or.inr (by omega)),
   (C8_call_with_args_arity (fun _ as => LVal.scalar as.length) 0 2
      [LVal.scalar 5, LVal.scalar 6]).2.2 (by omega) (by omega) rfl⟩

/-- C9: `lean_string_utf8_set` returns its string argument completely
unchanged — same bytes, same stored byte length, same cached codepoint
count — for every byte position and codepoint; it never performs the
replacement. -/
theorem C9_utf8_set_returns_unchanged (s : LString) (i c : Nat) :
    lean_string_utf8_set s i c = s ∧
    (lean_string_utf8_set s i c).data = s.data ∧
    (lean_string_utf8_set s i c).m_size = s.m_size ∧
    (lean_string_utf8_set s i c).m_length = s.m_length :=
  ⟨rfl, rfl, rfl, rfl⟩

/-- C10: `lean_secure_zero` zeroes every byte exactly when the array's
reference count is 1 (exclusive ownership); a shared or persistent array is
left byte-for-byte unchanged; in both cases the array comes back wrapped in
a success result. -/
theorem C10_secure_zero_exclusive_only (arr : ByteArrayObj) :
    (arr.rc = 1 → lean_secure_zero arr =
      IOResult.ok { rc := arr.rc, data := List.replicate arr.data.length 0 }) ∧
    (arr.rc ≠ 1 → lean_secure_zero arr = IOResult.ok arr) := by
  constructor
  · intro h
    simp [lean_secure_zero, lean_is_exclusive, h]
  · intro h
    simp [lean_secure_zero, lean_is_exclusive, h]

/-- C10 witness: an exclusively owned two-byte array is zeroed, a shared
one is returned untouched. -/
theorem C10_secure_zero_witness :
    lean_secure_zero ⟨1, [5, 7]⟩ = IOResult.ok ⟨1, [0, 0]⟩ ∧
    lean_secure_zero ⟨2, [5, 7]⟩ = IOResult.ok ⟨2, [5, 7]⟩ :=
  ⟨(C10_secure_zero_exclusive_only ⟨1, [5, 7]⟩).1 rfl,
   (C10_secure_zero_exclusive_only ⟨2, [5, 7]⟩).2 (by decide)⟩

end LeanWasm
